import Mathlib

/-!
Shallow embedding of the ACIP-to-TEI conversion pipeline of src/convert.py.

All string processing is modelled on List Char. Python standard-library string
operations (str.strip, str.replace, str.split, re.sub for the concrete patterns
appearing in the source, xml.sax.saxutils.escape) are embedded by dedicated
recursive functions whose semantics mirror the library behaviour on the
patterns actually used. The external transliteration engine (ACIPtoEWTS and
pyewts.toUnicode) is kept abstract as an Adapter structure, exactly as the
source treats it as an imported capability. XML well-formedness checking
(xml.etree.ElementTree.fromstring inside is_valid_xml) is embedded as an
executable character-level parser for the element/text/entity fragment
language relevant to the generated markup.
-/

namespace ACIPConv

/-- Characters of a string literal, used to write concrete inputs and outputs. -/
def chars (s : String) : List Char := s.data

/-- The apostrophe character (written by code point to keep literals simple). -/
def apos : Char := Char.ofNat 39

/-- The backquote character (appears in the shad-like punctuation list). -/
def backquote : Char := Char.ofNat 96

/-- Whitespace as understood by Python str.strip() / str.isspace and the regex
class \s on str: ASCII whitespace plus the separator control codes and the
common Unicode space code points. -/
def isPySpace (c : Char) : Bool :=
  c = ' ' || c = '\t' || c = '\n' || c = '\r' || c = Char.ofNat 11 || c = Char.ofNat 12 ||
  c = Char.ofNat 28 || c = Char.ofNat 29 || c = Char.ofNat 30 || c = Char.ofNat 31 ||
  c = Char.ofNat 133 || c = Char.ofNat 160 || c = Char.ofNat 0x1680 ||
  c = Char.ofNat 0x2000 || c = Char.ofNat 0x2001 || c = Char.ofNat 0x2002 ||
  c = Char.ofNat 0x2003 || c = Char.ofNat 0x2004 || c = Char.ofNat 0x2005 ||
  c = Char.ofNat 0x2006 || c = Char.ofNat 0x2007 || c = Char.ofNat 0x2008 ||
  c = Char.ofNat 0x2009 || c = Char.ofNat 0x200A || c = Char.ofNat 0x2028 ||
  c = Char.ofNat 0x2029 || c = Char.ofNat 0x202F || c = Char.ofNat 0x205F ||
  c = Char.ofNat 0x3000

/-- Python s.lstrip(set): drop leading characters belonging to the set. -/
def lstripSet (set : List Char) (s : List Char) : List Char :=
  s.dropWhile (fun c => set.contains c)

/-- Python s.rstrip(set): drop trailing characters belonging to the set. -/
def rstripSet (set : List Char) (s : List Char) : List Char :=
  (s.reverse.dropWhile (fun c => set.contains c)).reverse

/-- Python s.strip(set): drop characters of the set on both ends. -/
def stripSet (set : List Char) (s : List Char) : List Char :=
  rstripSet set (lstripSet set s)

/-- Python s.strip() with no argument: strip whitespace on both ends. -/
def pyStrip (s : List Char) : List Char :=
  ((s.dropWhile isPySpace).reverse.dropWhile isPySpace).reverse

/-- Fuel-driven body of Python str.replace: leftmost, non-overlapping
replacement of every occurrence of pat. The fuel is instantiated with the
string length; every step consumes at least one character (pat is nonempty in
every use in the source), so the zero-fuel case is unreachable. -/
def replaceAllF (pat rep : List Char) : Nat → List Char → List Char
  | _, [] => []
  | 0, s => s
  | fuel + 1, c :: rest =>
    if !pat.isEmpty && pat.isPrefixOf (c :: rest) then
      rep ++ replaceAllF pat rep fuel ((c :: rest).drop pat.length)
    else
      c :: replaceAllF pat rep fuel rest

/-- Python str.replace(pat, rep). -/
def replaceAll (pat rep s : List Char) : List Char :=
  replaceAllF pat rep s.length s

/-- Modelled from xml.sax.saxutils.escape: replace &, < and > by their
predefined entities (equivalent to the sequential str.replace calls of the
library, since the replacement texts contain no further & or < or >). -/
def escape : List Char → List Char
  | [] => []
  | c :: rest =>
    (if c = '&' then chars "&amp;"
     else if c = '<' then chars "&lt;"
     else if c = '>' then chars "&gt;" else [c]) ++ escape rest

/-- Characters kept by the first rule of sanitize_str:
tab, newline, carriage return and printable ASCII. -/
def allowedSani (c : Char) : Bool :=
  c = '\t' || c = '\n' || c = '\r' || (0x20 ≤ c.toNat && c.toNat ≤ 0x7E)

/-- State-machine form of re.sub of a newline followed by one-or-more spaces
with a bare newline: afterNl records that the scanner sits right after a
newline (or inside the space run following one), where spaces are dropped. -/
def subNlSpacesGo : Bool → List Char → List Char
  | _, [] => []
  | afterNl, c :: rest =>
    if afterNl && c = ' ' then subNlSpacesGo true rest
    else c :: subNlSpacesGo (c = '\n') rest

/-- re.sub of a newline followed by one-or-more spaces with a bare newline. -/
def subNlSpaces (s : List Char) : List Char := subNlSpacesGo false s

/-- State-machine form of re.sub of a run of two-or-more spaces with a single
space: prevSp records that the previous character was an emitted space, so
further spaces of the same run are dropped. -/
def subSpacesGo : Bool → List Char → List Char
  | _, [] => []
  | prevSp, c :: rest =>
    if prevSp && c = ' ' then subSpacesGo true rest
    else c :: subSpacesGo (c = ' ') rest

/-- re.sub of a run of two-or-more spaces with a single space. -/
def subSpaces (s : List Char) : List Char := subSpacesGo false s

/-- sanitize_str of src/convert.py: remove characters outside printable ASCII
plus tab/newline/carriage-return, normalize line endings to newline, remove
spaces following a newline, collapse space runs. -/
def sanitize_str (s : List Char) : List Char :=
  subSpaces (subNlSpaces (replaceAll (chars "\r") (chars "\n")
    (replaceAll (chars "\r\n") (chars "\n") (s.filter allowedSani))))

/-- clean_page_number of src/convert.py: None passes through; otherwise strip
leading zeros, lowercase, drop every character that is not a digit or a/b. -/
def clean_page_number : Option (List Char) → Option (List Char)
  | none => none
  | some p =>
    some (((p.dropWhile (fun c => c = '0')).map Char.toLower).filter
      (fun c => c.isDigit || c = 'a' || c = 'b'))

/-- balance_parentheses of src/convert.py, verbatim: when there are more c1
than c2 the code appends copies of c1, when more c2 than c1 it prepends
copies of c2. -/
def balance_parentheses (text : List Char) (c1 c2 : Char) : List Char :=
  let openCount := text.count c1
  let closeCount := text.count c2
  if openCount > closeCount then text ++ List.replicate (openCount - closeCount) c1
  else if closeCount > openCount then List.replicate (closeCount - openCount) c2 ++ text
  else text

/-- Valid XML 1.0 character (the character range enforced by the
ElementTree parser used in is_valid_xml). -/
def validChar (c : Char) : Bool :=
  c = '\t' || c = '\n' || c = '\r' ||
  (0x20 ≤ c.toNat && c.toNat ≤ 0xD7FF) ||
  (0xE000 ≤ c.toNat && c.toNat ≤ 0xFFFD) ||
  (0x10000 ≤ c.toNat && c.toNat ≤ 0x10FFFF)

/-- XML name characters for element and attribute names (ASCII fragment,
covering every name the converter emits). -/
def nameChar (c : Char) : Bool :=
  c.isAlpha || c.isDigit || c = ':' || c = '-' || c = '_' || c = '.'

/-- XML whitespace inside markup. -/
def isXmlWs (c : Char) : Bool :=
  c = ' ' || c = '\t' || c = '\n' || c = '\r'

/-- Characters that may appear while reading an entity reference. -/
def entChar (c : Char) : Bool := c.isAlphanum || c = '#'

/-- Code points acceptable for a character reference. -/
def validCode (n : Nat) : Bool :=
  n = 9 || n = 10 || n = 13 || (0x20 ≤ n && n ≤ 0xD7FF) ||
  (0xE000 ≤ n && n ≤ 0xFFFD) || (0x10000 ≤ n && n ≤ 0x10FFFF)

/-- Hexadecimal digit test. -/
def isHexDigit (c : Char) : Bool :=
  c.isDigit || (97 ≤ c.toNat && c.toNat ≤ 102) || (65 ≤ c.toNat && c.toNat ≤ 70)

/-- Value of a hexadecimal digit. -/
def hexDigitVal (c : Char) : Nat :=
  if c.isDigit then c.toNat - 48
  else if 97 ≤ c.toNat && c.toNat ≤ 102 then c.toNat - 87
  else c.toNat - 55

/-- Entity-reference body check: one of the five predefined entities, or a
decimal or hexadecimal character reference to a valid code point. -/
def entOk (acc : List Char) : Bool :=
  acc = chars "amp" || acc = chars "lt" || acc = chars "gt" ||
  acc = chars "quot" || acc = chars "apos" ||
  (match acc with
   | '#' :: 'x' :: hs =>
     !hs.isEmpty && hs.all isHexDigit && validCode (hs.foldl (fun n c => n * 16 + hexDigitVal c) 0)
   | '#' :: ds =>
     !ds.isEmpty && ds.all Char.isDigit && validCode (ds.foldl (fun n c => n * 10 + (c.toNat - 48)) 0)
   | _ => false)

/-- One attribute of an open tag: a name, an equals sign and a quoted value.
Returns the remaining characters on success. -/
def parseOneAttr (cs : List Char) : Option (List Char) :=
  let nm := cs.takeWhile nameChar
  if nm.isEmpty then none else
  match cs.drop nm.length with
  | '=' :: q :: rest =>
    if q = '"' || q = apos then
      let v := rest.takeWhile (fun c => validChar c && c ≠ q && c ≠ '<' && c ≠ '&')
      match rest.drop v.length with
      | q2 :: rest2 => if q2 = q then some rest2 else none
      | [] => none
    else none
  | _ => none

/-- Attribute list check: whitespace-separated attributes until the end of the
tag body. The fuel argument, instantiated with the list length, dominates the
number of attributes and makes the recursion structural. -/
def parseAttrsF : Nat → List Char → Bool
  | _, [] => true
  | 0, _ :: _ => false
  | fuel + 1, c :: rest =>
    if isXmlWs c then
      let r := rest.dropWhile isXmlWs
      if r.isEmpty then true
      else
        match parseOneAttr r with
        | some rest2 => parseAttrsF fuel rest2
        | none => false
    else false

/-- Attribute list check at full fuel. -/
def parseAttrs (cs : List Char) : Bool := parseAttrsF cs.length cs

/-- Classify an open tag body (between < and >, the trailing / of an empty
tag already removed): an element name followed by an attribute list.
Returns the element name. -/
def openTagName (acc : List Char) : Option (List Char) :=
  let nm := acc.takeWhile nameChar
  if nm.isEmpty then none
  else if parseAttrs (acc.drop nm.length) then some nm else none

/-- Parser state of the XML well-formedness checker: scanning text, inside a
tag token, inside an entity reference, or failed. The stack holds the open
element names; rootSeen records that a root element has been completed. -/
inductive XState where
  | txt (stack : List (List Char)) (rootSeen : Bool)
  | tag (acc : List Char) (stack : List (List Char)) (rootSeen : Bool)
  | ent (acc : List Char) (stack : List (List Char)) (rootSeen : Bool)
  | bad
deriving DecidableEq

/-- Handle the > ending a tag token: close tag, self-closing tag or open tag. -/
def finishTag (acc : List Char) (stack : List (List Char)) (b : Bool) : XState :=
  match acc with
  | '/' :: nm =>
    (match stack with
     | top :: rest =>
       if nm = top && !nm.isEmpty && nm.all nameChar then
         XState.txt rest (rest.isEmpty || b)
       else XState.bad
     | [] => XState.bad)
  | _ =>
    let selfClose := acc.getLast? = some '/'
    let core := if selfClose then acc.dropLast else acc
    match openTagName core with
    | some nm =>
      if stack.isEmpty && b then XState.bad
      else if selfClose then XState.txt stack (stack.isEmpty || b)
      else XState.txt (nm :: stack) b
    | none => XState.bad

/-- One character step of the XML fragment checker. -/
def xstep (s : XState) (c : Char) : XState :=
  match s with
  | XState.bad => XState.bad
  | XState.txt stack b =>
    if c = '<' then XState.tag [] stack b
    else if c = '&' then (if stack.isEmpty then XState.bad else XState.ent [] stack b)
    else if !validChar c then XState.bad
    else if stack.isEmpty then (if isXmlWs c then XState.txt [] b else XState.bad)
    else XState.txt stack b
  | XState.tag acc stack b =>
    if c = '>' then finishTag acc stack b
    else if c = '<' then XState.bad
    else if validChar c then XState.tag (acc ++ [c]) stack b
    else XState.bad
  | XState.ent acc stack b =>
    if c = ';' then (if entOk acc then XState.txt stack b else XState.bad)
    else if entChar c then XState.ent (acc ++ [c]) stack b
    else XState.bad

/-- Accepting state: all elements closed and exactly one root element read. -/
def isAccept : XState → Bool
  | XState.txt [] true => true
  | _ => false

/-- is_valid_xml of src/convert.py, embedded: run the checker over the string
and accept when it parses as a single root element with only surrounding
whitespace. The model covers the fragment language the converter can emit:
elements with quoted attributes, character data, entity and character
references, and XML 1.0 character validity; it does not model comments,
processing instructions or doctype declarations, which never occur in the
wrapped candidate fragments. -/
def is_valid_xml (s : List Char) : Bool :=
  isAccept (s.foldl xstep (XState.txt [] false))

/-- The external transliteration capability of the source (ACIPtoEWTS from
the ACIP module composed with pyewts.toUnicode); the pipeline treats both as
black boxes. -/
structure Adapter where
  toEWTS : List Char → List Char
  toUnicode : List Char → List Char

/-- ACIP_transform of src/convert.py: transliterate via the adapter, insert a
tsheg in the fixed Tibetan sequence, and prefix a tsheg or a space when the
EWTS form begins with a space. -/
def ACIP_transform (A : Adapter) (s : List Char) (lastIsShad : Bool) : List Char :=
  let s1 := A.toEWTS s
  let startsWithSpace := s1.head? = some ' '
  let s2 := A.toUnicode s1
  let s3 := replaceAll (chars "ང།") (chars "ང་།") s2
  if startsWithSpace then (if !lastIsShad then '་' else ' ') :: s3 else s3

/-- The capturing re.split of convert_text_components: cut the string into the
alternating text/tag token list (text tokens possibly empty). A tag token is a
< followed by one-or-more non-> characters and a >. -/
def splitTagsGo : Nat → List Char → List Char → List (List Char)
  | _, acc, [] => [acc]
  | 0, acc, cs => [acc ++ cs]
  | fuel + 1, acc, c :: rest =>
    if c = '<' then
      let inner := rest.takeWhile (fun d => d ≠ '>')
      if !inner.isEmpty && inner.length < rest.length then
        acc :: ('<' :: (inner ++ ['>'])) :: splitTagsGo fuel [] (rest.drop (inner.length + 1))
      else
        splitTagsGo fuel (acc ++ [c]) rest
    else splitTagsGo fuel (acc ++ [c]) rest

/-- tag_pattern.match(part): the token begins with a tag token. On the output
of the splitter this is exactly the tag-token test of the source loop. -/
def isTagTok (part : List Char) : Bool :=
  match part with
  | c :: rest =>
    if c = '<' then
      let inner := rest.takeWhile (fun d => d ≠ '>')
      !inner.isEmpty && inner.length < rest.length
    else false
  | [] => false

/-- Python substring containment (the in operator on str). -/
def containsSub (pat : List Char) : List Char → Bool
  | [] => pat.isEmpty
  | c :: rest => pat.isPrefixOf (c :: rest) || containsSub pat rest

/-- should_skip_tag of src/convert.py: the tag carries the English-language
attribute. -/
def should_skip_tag (tag : List Char) : Bool :=
  containsSub (chars "xml:lang=\"en\"") tag

/-- The shad-like trailing punctuation list of convert_text_components
(the source list contains the backquote twice). -/
def shadChars : List Char := [',', backquote, backquote, ';']

/-- Body of the convert_text_components loop for one text token: the emitted
characters and the updated last_is_shad flag. Mirrors the source: skipped
tokens pass untransliterated, a space is prepended whenever last_is_shad was
set, and every text token is XML-escaped at the end. -/
def processPart (A : Adapter) (skip lastIsShad : Bool) (part : List Char) : List Char × Bool :=
  let r := if skip then part else ACIP_transform A part lastIsShad
  let r2 := if lastIsShad then ' ' :: r else r
  let newShad := !skip && !part.isEmpty && shadChars.contains (part.getLast?.getD ' ')
  (escape r2, newShad)

/-- The token loop of convert_text_components. -/
def cctGo (A : Adapter) : List (List Char) → Bool → Bool → List Char
  | [], _, _ => []
  | part :: rest, skip, lastIsShad =>
    if isTagTok part then part ++ cctGo A rest (should_skip_tag part) lastIsShad
    else
      let pr := processPart A skip lastIsShad part
      pr.1 ++ cctGo A rest skip pr.2

/-- convert_text_components of src/convert.py: split into tag and text tokens,
pass tags through verbatim while tracking the skip flag, transform text. -/
def convert_text_components (A : Adapter) (text : List Char) : List Char :=
  cctGo A (splitTagsGo text.length [] text) false false

/-- The illegible-gap element emitted for [?] and for lone-? brackets. -/
def gapStr : List Char := chars "<gap reason=\"illegible\" unit=\"syllable\" quantity=\"1\"/>"

/-- re.sub of parenthesized spans with small-rendition elements; an empty
pair of parentheses is dropped. Fuel is instantiated with the list length
(every step consumes at least one character, so it never runs out). -/
def subParensGo : Nat → List Char → List Char
  | _, [] => []
  | 0, cs => cs
  | fuel + 1, '(' :: rest =>
    let content := rest.takeWhile (fun c => c ≠ ')')
    if content.length < rest.length then
      (if content.isEmpty then [] else chars "<hi rend=\"small\">" ++ content ++ chars "</hi>") ++
        subParensGo fuel (rest.drop (content.length + 1))
    else '(' :: subParensGo fuel rest
  | fuel + 1, c :: rest => c :: subParensGo fuel rest

/-- The parenthesis rewrite at full fuel. -/
def subParensAll (cs : List Char) : List Char := subParensGo cs.length cs

/-- re.sub of editorial comments [# ... ]: the non-greedy body stops at the
first closing bracket and may not contain a newline (the pattern is compiled
without DOTALL). The body is inserted into the note element unescaped,
exactly as in the source. -/
def subNoteGo : Nat → List Char → List Char
  | _, [] => []
  | 0, cs => cs
  | fuel + 1, '[' :: '#' :: rest =>
    let content := rest.takeWhile (fun c => c ≠ ']' && c ≠ '\n')
    if (rest.drop content.length).head? = some ']' then
      chars "<note type=\"editorial\" xml:lang=\"en\">" ++ content ++ chars "</note>" ++
        subNoteGo fuel (rest.drop (content.length + 1))
    else '[' :: subNoteGo fuel ('#' :: rest)
  | fuel + 1, c :: rest => c :: subNoteGo fuel rest

/-- The editorial-comment rewrite at full fuel. -/
def subNoteAll (cs : List Char) : List Char := subNoteGo cs.length cs

/-- Match the tail of the figure pattern after its opening bracket: DD, an
optional digit, a closing bracket, an optional space (given back when the
following group would otherwise be empty), then one-or-more characters up to
the next opening bracket. Returns the head text and the rest. -/
def figMatch (rest : List Char) : Option (List Char × List Char) :=
  match rest with
  | 'D' :: 'D' :: r2 =>
    let r3 := match r2 with
      | c :: r => if c.isDigit then r else r2
      | [] => r2
    (match r3 with
     | ']' :: r4 =>
       (match r4 with
        | ' ' :: r5 =>
          let c1 := r5.takeWhile (fun c => c ≠ '[')
          if !c1.isEmpty then some (c1, r5.drop c1.length)
          else
            let c2 := r4.takeWhile (fun c => c ≠ '[')
            if !c2.isEmpty then some (c2, r4.drop c2.length) else none
        | _ =>
          let c2 := r4.takeWhile (fun c => c ≠ '[')
          if !c2.isEmpty then some (c2, r4.drop c2.length) else none)
     | _ => none)
  | _ => none

/-- re.sub of the figure pattern. -/
def subFigureGo : Nat → List Char → List Char
  | _, [] => []
  | 0, cs => cs
  | fuel + 1, '[' :: rest =>
    (match figMatch rest with
     | some (content, rest2) =>
       chars "<figure><head>" ++ content ++ chars "</head></figure>" ++ subFigureGo fuel rest2
     | none => '[' :: subFigureGo fuel rest)
  | fuel + 1, c :: rest => c :: subFigureGo fuel rest

/-- The figure rewrite at full fuel. -/
def subFigureAll (cs : List Char) : List Char := subFigureGo cs.length cs

/-- Replacement text of the ChoiceCorrection rule: the original token and the
correction, the correction stripped, its leading asterisks removed, and a
trailing question mark converted into a low-certainty attribute. -/
def variantRepl (origRaw corrRaw : List Char) : List Char :=
  let origS := pyStrip origRaw
  let corr1 := (pyStrip corrRaw).dropWhile (fun c => c = '*')
  let hasCert := corr1.getLast? = some '?'
  let corr2 := (corr1.reverse.dropWhile (fun c => c = '?')).reverse
  chars "<choice><orig>" ++ origS ++ chars "</orig><corr" ++
    (if hasCert then chars " cert=\"low\"" else []) ++ ['>'] ++ corr2 ++ chars "</corr></choice>"

/-- Backtracking over the greedy non-whitespace token of the ChoiceCorrection
pattern: k counts the candidate token length, tried from the longest run n
downwards; only the full run may be followed by whitespace before the
bracket. Returns the replacement and the rest on success. -/
def variantCoreK (t : List Char) (n : Nat) : Nat → Option (List Char × List Char)
  | 0 => none
  | k + 1 =>
    let origC := t.take (k + 1)
    let after := t.drop (k + 1)
    let rest1 := if k + 1 = n then after.dropWhile isPySpace else after
    (match rest1 with
     | '[' :: r2 =>
       let content := r2.takeWhile (fun c => c ≠ ']')
       if !content.isEmpty && content.length < r2.length then
         some (variantRepl origC content, r2.drop (content.length + 1))
       else variantCoreK t n k
     | _ => variantCoreK t n k)

/-- The core of the ChoiceCorrection pattern starting at a token position. -/
def variantCore (t : List Char) : Option (List Char × List Char) :=
  let n := (t.takeWhile (fun c => !isPySpace c)).length
  variantCoreK t n n

/-- re.sub of the ChoiceCorrection pattern over the whole string: scanning
left to right, a match may begin at the string start (the anchor branch) or
must consume a whitespace run (the other alternation branch). -/
def subVariantGo : Nat → List Char → Bool → List Char
  | _, [], _ => []
  | 0, cs, _ => cs
  | fuel + 1, c :: rest, atStart =>
    let attempt :=
      if atStart then
        match variantCore (c :: rest) with
        | some pr => some pr
        | none =>
          if isPySpace c then variantCore ((c :: rest).dropWhile isPySpace) else none
      else
        if isPySpace c then variantCore ((c :: rest).dropWhile isPySpace) else none
    (match attempt with
     | some (repl, rest2) => repl ++ subVariantGo fuel rest2 false
     | none => c :: subVariantGo fuel rest false)

/-- The ChoiceCorrection rewrite at full fuel. -/
def subVariantAll (cs : List Char) : List Char := subVariantGo cs.length cs true

/-- Replacement of the UnclearSupplied rule for one bracketed span: a lone
question mark becomes a gap, page/text/missing content becomes an editorial
note, anything else an unclear element with a trailing ? stripped. -/
def unclearRepl (content : List Char) : List Char :=
  let text := pyStrip content
  if text = chars "?" then gapStr
  else
    let tlower := text.map Char.toLower
    if containsSub (chars "page") tlower || containsSub (chars "text") tlower ||
       containsSub (chars "missing ") tlower then
      chars "<note type=\"editorial\" xml:lang=\"en\">" ++
        escape (stripSet (chars " #!*[]()&") text) ++ chars "</note>"
    else
      let t2 := (text.reverse.dropWhile (fun c => c = '?')).reverse
      chars "<unclear reason=\"illegible\" cert=\"low\">" ++ t2 ++ chars "</unclear>"

/-- re.sub of the remaining bracketed spans under the UnclearSupplied policy. -/
def subUnclearGo : Nat → List Char → List Char
  | _, [] => []
  | 0, cs => cs
  | fuel + 1, '[' :: rest =>
    let content := rest.takeWhile (fun c => c ≠ ']')
    if !content.isEmpty && content.length < rest.length then
      unclearRepl content ++ subUnclearGo fuel (rest.drop (content.length + 1))
    else '[' :: subUnclearGo fuel rest
  | fuel + 1, c :: rest => c :: subUnclearGo fuel rest

/-- The UnclearSupplied rewrite at full fuel. -/
def subUnclearAll (cs : List Char) : List Char := subUnclearGo cs.length cs

/-- The trimmed paragraph with the conditional trailing space: the value the
source stores in original_line_str before any markup rewriting begins. -/
def original_line_str (lineStr : List Char) : List Char :=
  let l1 := stripSet (chars " \t\n\r") lineStr
  match l1.getLast? with
  | some c => if c.isAlpha || c = apos then l1 ++ [' '] else l1
  | none => l1

/-- The candidate markup fragment of convert_line: the rewrite-rule pipeline
in source order, ending with the tag-aware transliteration splitter. Every
variant_mode other than 1 takes the UnclearSupplied branch, as in the source
else-branch. -/
def convert_line_candidate (A : Adapter) (lineStr : List Char) (variantMode : Nat) : List Char :=
  let l2 := original_line_str lineStr
  let l3 := balance_parentheses l2 '[' ']'
  let l4 := chars "<lb/>" ++ l3
  let l5 := replaceAll (chars "[?]") gapStr l4
  let l6 := subParensAll l5
  let l7 := subNoteAll l6
  let l8 := replaceAll (chars "[LL]")
    (chars "<note type=\"editorial\" xml:lang=\"en\">Landza script on page</note>") l7
  let l9 := replaceAll (chars "[DR]")
    (chars "<note type=\"editorial\" xml:lang=\"en\">picture on page</note>") l8
  let l10 := replaceAll (chars "\x7bDD\x7d")
    (chars "<note type=\"editorial\" xml:lang=\"en\">picture on page</note>") l9
  let l11 := subFigureAll l10
  let l12 := if variantMode = 1 then subVariantAll l11 else subUnclearAll l11
  convert_text_components A l12

/-- convert_line of src/convert.py: build the candidate fragment; return it
stripped when it parses inside a p element, otherwise fall back to escaping
the stripped wholesale transliteration of original_line_str. -/
def convert_line (A : Adapter) (lineStr : List Char) (variantMode : Nat) : List Char :=
  let cand := convert_line_candidate A lineStr variantMode
  if !is_valid_xml (chars "<p>" ++ cand ++ chars "</p>") then
    escape (pyStrip (ACIP_transform A (original_line_str lineStr) false))
  else pyStrip cand

/-- A page of the structural parser: the raw marker label (before
normalization it is carried as matched) and the paragraph list. -/
structure PPage where
  number : Option (List Char)
  content : List (List Char)
deriving DecidableEq

/-- re.match of the page-marker pattern on a token: one-or-more at signs
followed by the non-whitespace label group. When the at-sign run is followed
by whitespace the regex backtracks and the final at sign itself becomes the
label, provided the run has length at least two. -/
def pageMatch (part : List Char) : Option (List Char) :=
  match part with
  | '@' :: _ =>
    let ats := part.takeWhile (fun c => c = '@')
    let rest := part.drop ats.length
    let lab := rest.takeWhile (fun c => !isPySpace c)
    if !lab.isEmpty then some lab
    else if 2 ≤ ats.length then some ['@']
    else none
  | _ => none

/-- re.split on the capturing page-marker pattern: the interleaved list of
text pieces and marker tokens, text pieces possibly empty. -/
def splitPartsGo : Nat → List Char → List Char → List (List Char)
  | _, acc, [] => [acc]
  | 0, acc, cs => [acc ++ cs]
  | fuel + 1, acc, '@' :: rest =>
    let ats := ('@' :: rest).takeWhile (fun c => c = '@')
    let tail0 := ('@' :: rest).drop ats.length
    let lab := tail0.takeWhile (fun c => !isPySpace c)
    if !lab.isEmpty then
      acc :: (ats ++ lab) :: splitPartsGo fuel [] (tail0.drop lab.length)
    else if 2 ≤ ats.length then
      acc :: ats :: splitPartsGo fuel [] tail0
    else
      splitPartsGo fuel (acc ++ ['@']) rest
  | fuel + 1, acc, c :: rest => splitPartsGo fuel (acc ++ [c]) rest

/-- The page-marker split at full fuel. -/
def splitParts (cs : List Char) : List (List Char) := splitPartsGo cs.length [] cs

/-- Python part.split on the two-newline separator (fuel structural). -/
def splitNNF : Nat → List Char → List Char → List (List Char)
  | _, acc, [] => [acc]
  | 0, acc, cs => [acc ++ cs]
  | fuel + 1, acc, '\n' :: '\n' :: rest => acc :: splitNNF fuel [] rest
  | fuel + 1, acc, c :: rest => splitNNF fuel (acc ++ [c]) rest

/-- Python part.split on the two-newline separator. -/
def splitNN (cs : List Char) : List (List Char) := splitNNF cs.length [] cs

/-- The paragraph extraction of parse_document for one text chunk: ignore
whitespace-only chunks, split on blank lines, keep pieces with content, turn
newlines into spaces, collapse double spaces once, and strip. -/
def procParas (part : List Char) : List (List Char) :=
  if (pyStrip part).isEmpty then []
  else
    ((splitNN part).filter (fun p => !(pyStrip p).isEmpty)).map
      (fun p => pyStrip (replaceAll (chars "  ") (chars " ")
        (replaceAll (chars "\n") (chars " ") p)))

/-- The accumulation loop of parse_document over the split token list:
markers flush the current page (when it has a label or content) and start a
new one; text pieces contribute paragraphs. -/
def buildLoop : List (List Char) → Option (List Char) → List (List Char) → List PPage → List PPage
  | [], curPage, curContent, acc =>
    if curPage.isSome || !curContent.isEmpty then
      acc ++ [⟨clean_page_number curPage, curContent⟩]
    else acc
  | part :: rest, curPage, curContent, acc =>
    match pageMatch part with
    | some lab =>
      let acc2 := if curPage.isSome || !curContent.isEmpty then
          acc ++ [⟨clean_page_number curPage, curContent⟩] else acc
      buildLoop rest (some lab) [] acc2
    | none => buildLoop rest curPage (curContent ++ procParas part) acc

/-- The pages of parse_document before the first-folio heuristic. -/
def pagesBeforeFix (content : List Char) : List PPage :=
  buildLoop (splitParts (balance_parentheses content '(' ')')) none [] []

/-- The guard of the first-folio relabelling heuristic: at least three pages,
first unnumbered, second labelled 1a or 1, third labelled 2a. -/
def heurCond (pages : List PPage) : Bool :=
  match pages with
  | p0 :: p1 :: p2 :: _ =>
    p0.number.isNone &&
    (p1.number == some (chars "1a") || p1.number == some (chars "1")) &&
    p2.number == some (chars "2a")
  | _ => false

/-- The in-place relabelling of the heuristic. -/
def relabelFirst : List PPage → List PPage
  | p0 :: p1 :: rest =>
    ⟨some (chars "1a"), p0.content⟩ :: ⟨some (chars "1b"), p1.content⟩ :: rest
  | ps => ps

/-- parse_document of src/convert.py: balance round parentheses
document-wide, split on page markers, gather normalized pages, and apply the
first-folio relabelling heuristic. -/
def parse_document (content : List Char) : List PPage :=
  let ps := pagesBeforeFix content
  if heurCond ps then relabelFirst ps else ps

/-- Modelled from the spec (claim C8): the claimed page-label shape, digits
optionally followed by at most one letter a or b. Stated only to compare the
code's normalization against the claimed pattern. -/
def specLabelPattern (s : List Char) : Bool :=
  let ds := s.takeWhile Char.isDigit
  let rest := s.drop ds.length
  rest.isEmpty || rest == ['a'] || rest == ['b']

/-- No newline-then-space adjacency (the invariant established by the
newline-space rule of the Sanitizer). -/
def noNlSpace : List Char → Bool
  | [] => true
  | c :: rest => !(c = '\n' && rest.head? == some ' ') && noNlSpace rest

/-- No space-then-space adjacency (the invariant established by the
space-collapsing rule of the Sanitizer). -/
def noDoubleSpace : List Char → Bool
  | [] => true
  | c :: rest => !(c = ' ' && rest.head? == some ' ') && noDoubleSpace rest

/-- The identity adapter: the natural mock for concrete examples whose
substance is markup synthesis rather than transliteration. -/
def idAdapter : Adapter := ⟨fun s => s, fun s => s⟩

/-- An adapter whose composite output always consists of valid XML
characters; used to instantiate validity statements. -/
def filterAdapter : Adapter := ⟨fun s => s, fun s => s.filter validChar⟩

/-! ## Shared helper lemmas -/

theorem mem_of_mem_pyStrip {c : Char} {s : List Char} (hc : c ∈ pyStrip s) : c ∈ s := by
  unfold pyStrip at hc
  rw [List.mem_reverse] at hc
  have h1 := ((List.dropWhile_suffix isPySpace).mem hc)
  rw [List.mem_reverse] at h1
  exact (List.dropWhile_suffix isPySpace).mem h1

theorem mem_pyStrip_of_mem {c : Char} {s : List Char} (hc : c ∈ s)
    (hw : isPySpace c = false) : c ∈ pyStrip s := by
  unfold pyStrip
  rw [List.mem_reverse]
  have step : ∀ (l : List Char), c ∈ l → c ∈ l.dropWhile isPySpace := by
    intro l hl
    have hsplit := List.takeWhile_append_dropWhile (p := isPySpace) (l := l)
    rw [← hsplit] at hl
    rcases List.mem_append.mp hl with h | h
    · have := List.mem_takeWhile_imp h
      rw [hw] at this
      exact absurd this (by simp)
    · exact h
  apply step
  rw [List.mem_reverse]
  exact step s hc

theorem pyStrip_eq_nil_iff {s : List Char} :
    pyStrip s = [] ↔ ∀ c ∈ s, isPySpace c = true := by
  constructor
  · intro h c hc
    by_contra hne
    have : c ∈ pyStrip s := mem_pyStrip_of_mem hc (by simpa using hne)
    rw [h] at this
    simp at this
  · intro h
    unfold pyStrip
    have h1 : s.dropWhile isPySpace = [] := by
      rw [List.dropWhile_eq_nil_iff]
      exact h
    rw [h1]
    simp

theorem mem_replaceAllF {pat rep : List Char} :
    ∀ (fuel : Nat) (s : List Char) (c : Char), c ∈ replaceAllF pat rep fuel s →
      c ∈ s ∨ c ∈ rep := by
  intro fuel
  induction fuel with
  | zero =>
    intro s c hc
    cases s with
    | nil => simp [replaceAllF] at hc
    | cons a rest => exact Or.inl (by simpa [replaceAllF] using hc)
  | succ f ih =>
    intro s c hc
    cases s with
    | nil => simp [replaceAllF] at hc
    | cons a rest =>
      simp only [replaceAllF] at hc
      by_cases hp : (!pat.isEmpty && pat.isPrefixOf (a :: rest)) = true
      · rw [if_pos hp] at hc
        rcases List.mem_append.mp hc with h | h
        · exact Or.inr h
        · rcases ih _ _ h with h2 | h2
          · exact Or.inl (List.mem_of_mem_drop h2)
          · exact Or.inr h2
      · rw [if_neg hp] at hc
        rcases List.mem_cons.mp hc with h | h
        · exact Or.inl (h ▸ List.mem_cons_self a rest)
        · rcases ih _ _ h with h2 | h2
          · exact Or.inl (List.mem_cons_of_mem a h2)
          · exact Or.inr h2

theorem mem_replaceAll {pat rep s : List Char} {c : Char}
    (hc : c ∈ replaceAll pat rep s) : c ∈ s ∨ c ∈ rep :=
  mem_replaceAllF s.length s c hc

theorem mem_replaceAllF_of_mem {pat rep : List Char} {c : Char} (hpat : c ∉ pat) :
    ∀ (fuel : Nat) (s : List Char), c ∈ s → c ∈ replaceAllF pat rep fuel s := by
  intro fuel
  induction fuel with
  | zero =>
    intro s hc
    cases s with
    | nil => simp at hc
    | cons a rest => simpa [replaceAllF] using hc
  | succ f ih =>
    intro s hc
    cases s with
    | nil => simp at hc
    | cons a rest =>
      simp only [replaceAllF]
      by_cases hp : (!pat.isEmpty && pat.isPrefixOf (a :: rest)) = true
      · rw [if_pos hp]
        have hpre : pat <+: a :: rest := by
          have := (Bool.and_eq_true _ _).mp hp
          exact List.isPrefixOf_iff_prefix.mp this.2
        obtain ⟨t, ht⟩ := hpre
        have hdrop : (a :: rest).drop pat.length = t := by
          rw [← ht]
          exact List.drop_left pat t
        rw [hdrop]
        apply List.mem_append_right
        apply ih
        rw [← ht] at hc
        rcases List.mem_append.mp hc with h | h
        · exact absurd h hpat
        · exact h
      · rw [if_neg hp]
        rcases List.mem_cons.mp hc with h | h
        · exact h ▸ List.mem_cons_self a _
        · exact List.mem_cons_of_mem a (ih rest h)

theorem mem_replaceAll_of_mem {pat rep s : List Char} {c : Char} (hpat : c ∉ pat)
    (hc : c ∈ s) : c ∈ replaceAll pat rep s :=
  mem_replaceAllF_of_mem hpat s.length s hc

theorem replaceAllF_id_of_head_notMem {a : Char} {pat rep : List Char} :
    ∀ (fuel : Nat) (s : List Char), a ∉ s → replaceAllF (a :: pat) rep fuel s = s := by
  intro fuel
  induction fuel with
  | zero => intro s _; cases s <;> simp [replaceAllF]
  | succ f ih =>
    intro s hs
    cases s with
    | nil => simp [replaceAllF]
    | cons c rest =>
      have hca : ¬ (a :: pat).isPrefixOf (c :: rest) = true := by
        intro hpre
        have : a = c := by
          have := List.isPrefixOf_iff_prefix.mp hpre
          obtain ⟨t, ht⟩ := this
          exact (List.cons_eq_cons.mp (by simpa using ht)).1
        exact hs (this ▸ List.mem_cons_self c rest)
      simp only [replaceAllF]
      rw [if_neg (by simp [hca])]
      have : a ∉ rest := fun h => hs (List.mem_cons_of_mem c h)
      rw [ih rest this]

theorem replaceAll_id_of_head_notMem {a : Char} {pat rep s : List Char}
    (hs : a ∉ s) : replaceAll (a :: pat) rep s = s :=
  replaceAllF_id_of_head_notMem s.length s hs

/-! ## C2 and C3: balance_parentheses -/

/-- C2: evaluation of balance_parentheses at the failing input. The claim
(and the function docstring) say the repair appends the missing closing
characters, yielding balanced counts; the code appends the opening character
c1 instead, so on "(" it returns "((" whose counts are 2 and 0. -/
theorem balance_parentheses_appends_opener :
    balance_parentheses (chars "(") '(' ')' = chars "((" ∧
    ¬ ((chars "((").count '(' = (chars "((").count ')') := by decide

/-- C3: bracket balancing is not idempotent on the code as written: starting
from "(" one application gives "((" and a second gives "((((". -/
theorem balance_parentheses_not_idempotent :
    balance_parentheses (balance_parentheses (chars "(") '(' ')') '(' ')' ≠
      balance_parentheses (chars "(") '(' ')' := by decide

/-! ## C6: the ChoiceCorrection example -/

/-- C6: under variant_mode 1 the input "rgyal [rgyas?]" becomes a choice
element: the orig child holds the line-break marker (absorbed into the
original token by the greedy match) followed by the character data "rgyal",
the corr child has text exactly "rgyas", carries cert="low", and the trailing
question mark is consumed. Stated with the identity adapter, the natural mock
for a markup-synthesis example. -/
theorem convert_line_choice_correction_example :
    convert_line idAdapter (chars "rgyal [rgyas?]") 1 =
      chars "<choice><orig><lb/>rgyal</orig><corr cert=\"low\">rgyas</corr></choice>" := by
  decide

/-! ## C8: clean_page_number -/

/-- C8 counterexample: the raw label "12ab" is already lowercase with no
leading zeros, the code keeps it verbatim, and it does not match the claimed
pattern of digits followed by at most one letter a or b. -/
theorem clean_page_number_pattern_counterexample :
    clean_page_number (some (chars "12ab")) = some (chars "12ab") ∧
    specLabelPattern (chars "12ab") = false := by decide

/-- C8 (amended): clean_page_number maps None to None, and on a string it
strips leading zeros of the raw marker, lowercases, and keeps exactly the
digits and letters a/b — so every character of the result is a digit, a or b,
but the result need not match the shape digits-then-one-letter. -/
theorem clean_page_number_chars :
    clean_page_number none = none ∧
    ∀ (s r : List Char), clean_page_number (some s) = some r →
      ∀ c ∈ r, c.isDigit = true ∨ c = 'a' ∨ c = 'b' := by
  refine ⟨rfl, ?_⟩
  intro s r hr c hc
  simp only [clean_page_number, Option.some.injEq] at hr
  rw [← hr] at hc
  have := (List.mem_filter.mp hc).2
  simpa [or_assoc] using this

/-- Witness for the amended C8 at a concrete input: the label "0x2a"
normalizes to "2a" and its character '2' is a digit. -/
theorem clean_page_number_chars_witness :
    clean_page_number (some (chars "0x2a")) = some (chars "2a") ∧
    ('2'.isDigit = true ∨ '2' = 'a' ∨ '2' = 'b') :=
  ⟨by decide, clean_page_number_chars.2 (chars "0x2a") (chars "2a") (by decide) '2' (by decide)⟩

/-! ## C5: the fallback input -/

/-- C5 counterexample: a paragraph with surrounding whitespace whose
candidate markup is invalid. The fallback does not transliterate the
untouched input paragraph: with the identity adapter, transliterating the
raw " x [#a<b] " would prefix a tsheg (the EWTS form starts with a space),
but convert_line returns the transliteration of the trimmed string. -/
theorem convert_line_fallback_counterexample :
    is_valid_xml (chars "<p>" ++ convert_line_candidate idAdapter (chars " x [#a<b] ") 2 ++
      chars "</p>") = false ∧
    convert_line idAdapter (chars " x [#a<b] ") 2 ≠
      escape (ACIP_transform idAdapter (chars " x [#a<b] ") false) := by decide

/-- C5 (amended): when the candidate fragment is not well-formed, convert_line
recomputes its output from original_line_str — the paragraph after trimming
and the conditional trailing-space insertion, but before bracket balancing,
line-break insertion and the rewrite rules — transliterating it wholesale,
stripping whitespace and XML-escaping the result. -/
theorem convert_line_fallback_from_original :
    ∀ (A : Adapter) (lineStr : List Char) (variantMode : Nat),
      is_valid_xml (chars "<p>" ++ convert_line_candidate A lineStr variantMode ++
        chars "</p>") = false →
      convert_line A lineStr variantMode =
        escape (pyStrip (ACIP_transform A (original_line_str lineStr) false)) := by
  intro A l m h
  simp only [convert_line]
  rw [h]
  simp

/-- Witness for the amended C5: the fallback is reached on " x [#a<b] " and
produces the escaped transliteration of the trimmed paragraph. -/
theorem convert_line_fallback_from_original_witness :
    is_valid_xml (chars "<p>" ++ convert_line_candidate idAdapter (chars " x [#a<b] ") 2 ++
      chars "</p>") = false ∧
    convert_line idAdapter (chars " x [#a<b] ") 2 =
      escape (pyStrip (ACIP_transform idAdapter (original_line_str (chars " x [#a<b] ")) false)) :=
  ⟨by decide, convert_line_fallback_from_original idAdapter (chars " x [#a<b] ") 2 (by decide)⟩

/-! ## C4: the tag-aware splitter on English-marked spans -/

theorem takeWhile_append_stop (p : Char → Bool) :
    ∀ (l : List Char) (x : Char) (r : List Char), (∀ c ∈ l, p c = true) → p x = false →
      (l ++ x :: r).takeWhile p = l := by
  intro l
  induction l with
  | nil =>
    intro x r _ hx
    simp [List.takeWhile_cons, hx]
  | cons a t ih =>
    intro x r hl hx
    have ha : p a = true := hl a (List.mem_cons_self _ _)
    simp only [List.cons_append, List.takeWhile_cons, ha, if_true]
    rw [ih x r (fun c hc => hl c (List.mem_cons_of_mem a hc)) hx]

theorem splitTagsGo_text :
    ∀ (txt : List Char), '<' ∉ txt →
    ∀ (fuel : Nat) (acc rest : List Char),
      splitTagsGo (fuel + txt.length) acc (txt ++ rest) = splitTagsGo fuel (acc ++ txt) rest := by
  intro txt
  induction txt with
  | nil =>
    intro _ fuel acc rest
    simp
  | cons c t ih =>
    intro h fuel acc rest
    have hc : c ≠ '<' := fun hh => h (hh ▸ List.mem_cons_self c t)
    show splitTagsGo ((fuel + t.length) + 1) acc (c :: (t ++ rest)) = _
    simp only [splitTagsGo]
    rw [if_neg hc]
    rw [ih (fun hm => h (List.mem_cons_of_mem c hm)) fuel (acc ++ [c]) rest]
    simp

theorem splitTagsGo_tag {body : List Char} (hb : body ≠ []) (hgt : '>' ∉ body) :
    ∀ (fuel : Nat) (acc rest : List Char),
      splitTagsGo (fuel + 1) acc ('<' :: (body ++ '>' :: rest)) =
        acc :: ('<' :: (body ++ ['>'])) :: splitTagsGo fuel [] rest := by
  intro fuel acc rest
  simp only [splitTagsGo]
  rw [if_pos trivial]
  have htw : (body ++ '>' :: rest).takeWhile (fun d => decide (d ≠ '>')) = body := by
    apply takeWhile_append_stop
    · intro c hc
      simp only [decide_eq_true_eq]
      exact fun hh => hgt (hh ▸ hc)
    · simp
  simp only [htw]
  have hcond : (!body.isEmpty && decide (body.length < (body ++ '>' :: rest).length)) = true := by
    simp [List.isEmpty_eq_true, hb]
  rw [if_pos (by simpa using hcond)]
  have hdrop : (body ++ '>' :: rest).drop (body.length + 1) = rest := by
    have : body ++ '>' :: rest = (body ++ ['>']) ++ rest := by simp
    rw [this]
    have hlen : (body ++ ['>']).length = body.length + 1 := by simp
    rw [← hlen]
    exact List.drop_left _ _
  rw [hdrop]

theorem isTagTok_eq_false {part : List Char} (h : '<' ∉ part) : isTagTok part = false := by
  cases part with
  | nil => rfl
  | cons c rest =>
    have hc : c ≠ '<' := fun hh => h (hh ▸ List.mem_cons_self _ _)
    simp [isTagTok, hc]

theorem ACIP_transform_nil {A : Adapter} (h1 : A.toEWTS [] = []) (h2 : A.toUnicode [] = [])
    (b : Bool) : ACIP_transform A [] b = [] := by
  simp [ACIP_transform, h1, h2, replaceAll, replaceAllF]

theorem processPart_skip (A : Adapter) (lastIsShad : Bool) (part : List Char) :
    processPart A true lastIsShad part =
      (escape (if lastIsShad then ' ' :: part else part), false) := by
  simp [processPart]

theorem processPart_nil {A : Adapter} (h1 : A.toEWTS [] = []) (h2 : A.toUnicode [] = [])
    (skip : Bool) : processPart A skip false [] = ([], false) := by
  cases skip <;> simp [processPart, ACIP_transform_nil h1 h2, escape]

/-- C4 counterexample: text enclosed by an English-marked tag is not passed
through byte-identical — the splitter XML-escapes it. On the fragment
holding the enclosed text a&b, the output span holds a&amp;b. -/
theorem english_span_not_byte_identical :
    convert_text_components idAdapter (chars "<note xml:lang=\"en\">a&b</note>") =
      chars "<note xml:lang=\"en\">a&amp;b</note>" ∧
    convert_text_components idAdapter (chars "<note xml:lang=\"en\">a&b</note>") ≠
      chars "<note xml:lang=\"en\">a&b</note>" := by decide

/-- C4 (amended): a text token inside an English-marked span is never
transliterated — the adapter is arbitrary — but it is XML-escaped (and, per
the source, a space would be prepended when the preceding non-skipped token
ended in shad-like punctuation; none precedes here). -/
theorem convert_text_components_english_span :
    ∀ (A : Adapter), A.toEWTS [] = [] → A.toUnicode [] = [] →
      ∀ txt : List Char, '<' ∉ txt →
        convert_text_components A (chars "<note xml:lang=\"en\">" ++ txt ++ chars "</note>") =
          chars "<note xml:lang=\"en\">" ++ escape txt ++ chars "</note>" := by
  intro A h1 h2 txt hlt
  unfold convert_text_components
  have hshape : chars "<note xml:lang=\"en\">" ++ txt ++ chars "</note>" =
      '<' :: (chars "note xml:lang=\"en\"" ++ '>' :: (txt ++ chars "</note>")) := by
    simp [chars]
  have hclose : chars "</note>" = '<' :: (chars "/note" ++ '>' :: ([] : List Char)) := by
    simp [chars]
  have hlen : (chars "<note xml:lang=\"en\">" ++ txt ++ chars "</note>").length =
      ((26 + txt.length) + 1) := by
    simp [chars]
    omega
  have hsplit : splitTagsGo (chars "<note xml:lang=\"en\">" ++ txt ++ chars "</note>").length []
      (chars "<note xml:lang=\"en\">" ++ txt ++ chars "</note>") =
      [[], chars "<note xml:lang=\"en\">", txt, chars "</note>", []] := by
    rw [hlen]
    conv =>
      lhs
      rw [hshape]
    rw [splitTagsGo_tag (by decide) (by decide) (26 + txt.length) [] (txt ++ chars "</note>")]
    rw [splitTagsGo_text txt hlt 26 [] (chars "</note>")]
    conv =>
      lhs
      rw [hclose]
    show _ :: _ :: splitTagsGo (25 + 1) ([] ++ txt) ('<' :: (chars "/note" ++ '>' :: [])) = _
    rw [splitTagsGo_tag (by decide) (by decide) 25 ([] ++ txt) []]
    simp [chars, splitTagsGo]
  rw [hsplit]
  have ht1 : isTagTok (chars "<note xml:lang=\"en\">") = true := by decide
  have ht2 : isTagTok (chars "</note>") = true := by decide
  have ht3 : isTagTok txt = false := isTagTok_eq_false hlt
  have hs1 : should_skip_tag (chars "<note xml:lang=\"en\">") = true := by decide
  have hs2 : should_skip_tag (chars "</note>") = false := by decide
  have hp0 : processPart A false false [] = ([], false) := processPart_nil h1 h2 false
  have hpt : processPart A true false txt = (escape txt, false) := by
    rw [processPart_skip]
    simp
  simp only [cctGo, ht1, ht2, ht3, hs1, hs2, hp0, hpt]
  simp

/-- Witness for the amended C4 at a concrete adapter and span text. -/
theorem convert_text_components_english_span_witness :
    (idAdapter.toEWTS [] = [] ∧ idAdapter.toUnicode [] = [] ∧ '<' ∉ chars "a&b") ∧
    convert_text_components idAdapter (chars "<note xml:lang=\"en\">" ++ chars "a&b" ++
      chars "</note>") =
      chars "<note xml:lang=\"en\">" ++ escape (chars "a&b") ++ chars "</note>" :=
  ⟨⟨rfl, rfl, by decide⟩,
   convert_text_components_english_span idAdapter rfl rfl (chars "a&b") (by decide)⟩

/-! ## C7: paragraphs that are empty after trimming -/

theorem procParas_nonblank {part p : List Char} (hp : p ∈ procParas part) :
    pyStrip p ≠ [] := by
  unfold procParas at hp
  by_cases hempty : (pyStrip part).isEmpty = true
  · rw [if_pos hempty] at hp
    simp at hp
  · rw [if_neg hempty] at hp
    obtain ⟨q, hq, hqp⟩ := List.mem_map.mp hp
    have hqf := (List.mem_filter.mp hq).2
    have hqne : pyStrip q ≠ [] := by
      intro h
      rw [h] at hqf
      simp at hqf
    have hex : ¬ (∀ c ∈ q, isPySpace c = true) := fun hall => hqne (pyStrip_eq_nil_iff.mpr hall)
    push_neg at hex
    obtain ⟨c, hcq, hcs⟩ := hex
    have hcs2 : isPySpace c = false := by simpa using hcs
    have hcn : c ∉ chars "\n" := by
      intro hmem
      simp only [chars] at hmem
      rw [List.mem_singleton] at hmem
      rw [hmem] at hcs2
      exact absurd hcs2 (by decide)
    have hcsp : c ∉ chars "  " := by
      intro hmem
      simp only [chars] at hmem
      have : c = ' ' := by
        rcases List.mem_cons.mp hmem with h | h
        · exact h
        · simpa using h
      rw [this] at hcs2
      exact absurd hcs2 (by decide)
    have hc1 : c ∈ replaceAll (chars "\n") (chars " ") q := mem_replaceAll_of_mem hcn hcq
    have hc2 : c ∈ replaceAll (chars "  ") (chars " ") (replaceAll (chars "\n") (chars " ") q) :=
      mem_replaceAll_of_mem hcsp hc1
    have hc3 := mem_pyStrip_of_mem hc2 hcs2
    rw [hqp] at hc3
    have hc4 := mem_pyStrip_of_mem hc3 hcs2
    exact List.ne_nil_of_mem hc4

theorem buildLoop_nonblank :
    ∀ (parts : List (List Char)) (curPage : Option (List Char))
      (curContent : List (List Char)) (acc : List PPage),
      (∀ pg ∈ acc, ∀ p ∈ pg.content, pyStrip p ≠ []) →
      (∀ p ∈ curContent, pyStrip p ≠ []) →
      ∀ pg ∈ buildLoop parts curPage curContent acc, ∀ p ∈ pg.content, pyStrip p ≠ [] := by
  intro parts
  induction parts with
  | nil =>
    intro curPage curContent acc hacc hcur pg hpg
    simp only [buildLoop] at hpg
    by_cases hc : (curPage.isSome || !curContent.isEmpty) = true
    · rw [if_pos hc] at hpg
      rcases List.mem_append.mp hpg with h | h
      · exact hacc pg h
      · rw [List.mem_singleton] at h
        subst h
        exact hcur
    · rw [if_neg hc] at hpg
      exact hacc pg hpg
  | cons part rest ih =>
    intro curPage curContent acc hacc hcur pg hpg
    simp only [buildLoop] at hpg
    cases hpm : pageMatch part with
    | some lab =>
      rw [hpm] at hpg
      simp only [] at hpg
      refine ih (some lab) [] _ ?_ (by simp) pg hpg
      intro pg2 hpg2
      by_cases hc : (curPage.isSome || !curContent.isEmpty) = true
      · rw [if_pos hc] at hpg2
        rcases List.mem_append.mp hpg2 with h | h
        · exact hacc pg2 h
        · rw [List.mem_singleton] at h
          subst h
          exact hcur
      · rw [if_neg hc] at hpg2
        exact hacc pg2 hpg2
    | none =>
      rw [hpm] at hpg
      simp only [] at hpg
      refine ih curPage (curContent ++ procParas part) acc hacc ?_ pg hpg
      intro p hp
      rcases List.mem_append.mp hp with h | h
      · exact hcur p h
      · exact procParas_nonblank h

theorem parse_document_nonblank :
    ∀ (content : List Char), ∀ pg ∈ parse_document content, ∀ p ∈ pg.content,
      pyStrip p ≠ [] := by
  intro content pg hpg
  have hps : ∀ pg2 ∈ pagesBeforeFix content, ∀ p ∈ pg2.content, pyStrip p ≠ [] := by
    apply buildLoop_nonblank <;> simp
  unfold parse_document at hpg
  by_cases hc : heurCond (pagesBeforeFix content) = true
  · rw [if_pos hc] at hpg
    cases hb : pagesBeforeFix content with
    | nil =>
      rw [hb] at hpg
      simp [relabelFirst] at hpg
    | cons p0 t =>
      cases t with
      | nil =>
        rw [hb] at hpg
        simp only [relabelFirst] at hpg
        rw [List.mem_singleton] at hpg
        rw [hpg]
        exact hps p0 (hb ▸ List.mem_cons_self _ _)
      | cons p1 t2 =>
        rw [hb] at hpg
        simp only [relabelFirst] at hpg
        rcases List.mem_cons.mp hpg with h | h
        · rw [h]
          exact hps p0 (hb ▸ List.mem_cons_self _ _)
        · rcases List.mem_cons.mp h with h2 | h2
          · rw [h2]
            exact hps p1 (hb ▸ List.mem_cons_of_mem _ (List.mem_cons_self _ _))
          · exact hps pg (hb ▸ List.mem_cons_of_mem _ (List.mem_cons_of_mem _ h2))
  · rw [if_neg hc] at hpg
    exact hps pg hpg

theorem convert_line_empty_gives_lb :
    ∀ (A : Adapter), A.toEWTS [] = [] → A.toUnicode [] = [] →
      ∀ (lineStr : List Char) (variantMode : Nat),
        stripSet (chars " \t\n\r") lineStr = [] →
        convert_line A lineStr variantMode = chars "<lb/>" := by
  intro A h1 h2 l m hs
  have horig : original_line_str l = [] := by
    simp [original_line_str, hs]
  have hcand : convert_line_candidate A l m = chars "<lb/>" := by
    dsimp only [convert_line_candidate]
    rw [horig]
    have hbal : balance_parentheses [] '[' ']' = [] := rfl
    rw [hbal]
    have happ : chars "<lb/>" ++ ([] : List Char) = chars "<lb/>" := by simp
    rw [happ]
    have e1 : replaceAll (chars "[?]") gapStr (chars "<lb/>") = chars "<lb/>" := by decide
    rw [e1]
    have e2 : subParensAll (chars "<lb/>") = chars "<lb/>" := by decide
    rw [e2]
    have e3 : subNoteAll (chars "<lb/>") = chars "<lb/>" := by decide
    rw [e3]
    have e4 : replaceAll (chars "[LL]")
        (chars "<note type=\"editorial\" xml:lang=\"en\">Landza script on page</note>")
        (chars "<lb/>") = chars "<lb/>" := by decide
    rw [e4]
    have e5 : replaceAll (chars "[DR]")
        (chars "<note type=\"editorial\" xml:lang=\"en\">picture on page</note>")
        (chars "<lb/>") = chars "<lb/>" := by decide
    rw [e5]
    have e6 : replaceAll (chars "\x7bDD\x7d")
        (chars "<note type=\"editorial\" xml:lang=\"en\">picture on page</note>")
        (chars "<lb/>") = chars "<lb/>" := by decide
    rw [e6]
    have e7 : subFigureAll (chars "<lb/>") = chars "<lb/>" := by decide
    rw [e7]
    have e8 : (if m = 1 then subVariantAll (chars "<lb/>") else subUnclearAll (chars "<lb/>")) =
        chars "<lb/>" := by
      by_cases hm : m = 1
      · rw [if_pos hm]
        decide
      · rw [if_neg hm]
        decide
    rw [e8]
    unfold convert_text_components
    have hsp : splitTagsGo (chars "<lb/>").length [] (chars "<lb/>") =
        [[], chars "<lb/>", []] := by decide
    rw [hsp]
    have hp0 := processPart_nil h1 h2 false
    have ht : isTagTok (chars "<lb/>") = true := by decide
    have hsk : should_skip_tag (chars "<lb/>") = false := by decide
    simp only [cctGo, ht, hsk, hp0]
    simp
  dsimp only [convert_line]
  rw [hcand]
  have hv : is_valid_xml (chars "<p>" ++ chars "<lb/>" ++ chars "</p>") = true := by decide
  rw [hv]
  simp
  decide

/-- C7 counterexample: a paragraph that is empty after trimming does not
produce an empty fragment — convert_line returns the bare line-break marker,
which the assembler's emptiness guard would not omit. -/
theorem empty_paragraph_counterexample :
    convert_line idAdapter (chars " ") 2 = chars "<lb/>" ∧
    convert_line idAdapter (chars " ") 2 ≠ ([] : List Char) := by decide

/-- C7 (amended): a paragraph string that is empty after trimming never
occurs in a parsed document — every paragraph the Structural Parser emits
still has content after whitespace stripping, which is why such paragraphs
are absent from document output — while convert_line itself, applied to a
string that trims to empty, returns the line-break marker rather than an
empty fragment (for any adapter that is empty on empty input). -/
theorem empty_paragraph_behaviour :
    (∀ (content : List Char), ∀ pg ∈ parse_document content, ∀ p ∈ pg.content,
      pyStrip p ≠ []) ∧
    (∀ (A : Adapter), A.toEWTS [] = [] → A.toUnicode [] = [] →
      ∀ (lineStr : List Char) (variantMode : Nat),
        stripSet (chars " \t\n\r") lineStr = [] →
        convert_line A lineStr variantMode = chars "<lb/>") :=
  ⟨parse_document_nonblank, convert_line_empty_gives_lb⟩

/-- Witness for the amended C7: a page paragraph of a concrete document is
non-blank, and a two-space paragraph maps to the bare line-break marker. -/
theorem empty_paragraph_behaviour_witness :
    pyStrip (chars "x") ≠ [] ∧ convert_line idAdapter (chars "  ") 0 = chars "<lb/>" :=
  ⟨empty_paragraph_behaviour.1 (chars "@1a x") ⟨some (chars "1a"), [chars "x"]⟩ (by decide)
     (chars "x") (by decide),
   empty_paragraph_behaviour.2 idAdapter rfl rfl (chars "  ") 0 (by decide)⟩

/-! ## C10: idempotence of the Sanitizer -/

theorem mem_subNlSpacesGo : ∀ (s : List Char) (b : Bool) (c : Char),
    c ∈ subNlSpacesGo b s → c ∈ s := by
  intro s
  induction s with
  | nil =>
    intro b c hc
    simp [subNlSpacesGo] at hc
  | cons a rest ih =>
    intro b c hc
    simp only [subNlSpacesGo] at hc
    by_cases h : (b && decide (a = ' ')) = true
    · rw [if_pos h] at hc
      exact List.mem_cons_of_mem a (ih true c hc)
    · rw [if_neg h] at hc
      rcases List.mem_cons.mp hc with h2 | h2
      · exact h2 ▸ List.mem_cons_self a rest
      · exact List.mem_cons_of_mem a (ih _ c h2)

theorem mem_subSpacesGo : ∀ (s : List Char) (b : Bool) (c : Char),
    c ∈ subSpacesGo b s → c ∈ s := by
  intro s
  induction s with
  | nil =>
    intro b c hc
    simp [subSpacesGo] at hc
  | cons a rest ih =>
    intro b c hc
    simp only [subSpacesGo] at hc
    by_cases h : (b && decide (a = ' ')) = true
    · rw [if_pos h] at hc
      exact List.mem_cons_of_mem a (ih true c hc)
    · rw [if_neg h] at hc
      rcases List.mem_cons.mp hc with h2 | h2
      · exact h2 ▸ List.mem_cons_self a rest
      · exact List.mem_cons_of_mem a (ih _ c h2)

theorem subSpacesGo_false_head : ∀ (v : List Char), (subSpacesGo false v).head? = v.head? := by
  intro v
  cases v with
  | nil => rfl
  | cons a rest => simp [subSpacesGo]

theorem subNlSpacesGo_noNlSpace : ∀ (s : List Char) (b : Bool),
    noNlSpace (subNlSpacesGo b s) = true ∧
    (b = true → (subNlSpacesGo b s).head? ≠ some ' ') := by
  intro s
  induction s with
  | nil =>
    intro b
    exact ⟨rfl, by simp [subNlSpacesGo]⟩
  | cons a rest ih =>
    intro b
    simp only [subNlSpacesGo]
    by_cases h : (b && decide (a = ' ')) = true
    · rw [if_pos h]
      exact ⟨(ih true).1, fun _ => (ih true).2 rfl⟩
    · rw [if_neg h]
      constructor
      · simp only [noNlSpace, Bool.and_eq_true]
        refine ⟨?_, (ih _).1⟩
        by_cases ha : a = '\n'
        · have hhead := (ih (decide (a = '\n'))).2 (by simp [ha])
          simp only [Bool.not_eq_true']
          rw [Bool.and_eq_false_iff]
          right
          rw [beq_eq_false_iff_ne]
          exact hhead
        · simp [ha]
      · intro hb
        have hane : a ≠ ' ' := by
          intro ha
          rw [hb, ha] at h
          simp at h
        simp only [List.head?_cons]
        intro hcontra
        exact hane (Option.some.injEq _ _ ▸ hcontra)

theorem subNlSpacesGo_id : ∀ (s : List Char) (b : Bool),
    noNlSpace s = true → (b = true → s.head? ≠ some ' ') → subNlSpacesGo b s = s := by
  intro s
  induction s with
  | nil =>
    intro b _ _
    rfl
  | cons a rest ih =>
    intro b hno hhead
    simp only [noNlSpace, Bool.and_eq_true] at hno
    simp only [subNlSpacesGo]
    have hcond : (b && decide (a = ' ')) = false := by
      by_cases hb : b = true
      · have hane : a ≠ ' ' := by
          intro ha
          exact hhead hb (by rw [ha]; rfl)
        simp [hb, hane]
      · have hbf : b = false := by
          cases b
          · rfl
          · exact absurd rfl hb
        simp [hbf]
    rw [if_neg (by simp [hcond])]
    congr 1
    apply ih
    · exact hno.2
    · intro ha hr
      have h1 := hno.1
      rw [ha] at h1
      rw [hr] at h1
      simp at h1

theorem subSpacesGo_noDoubleSpace : ∀ (s : List Char) (b : Bool),
    noDoubleSpace (subSpacesGo b s) = true ∧
    (b = true → (subSpacesGo b s).head? ≠ some ' ') := by
  intro s
  induction s with
  | nil =>
    intro b
    exact ⟨rfl, by simp [subSpacesGo]⟩
  | cons a rest ih =>
    intro b
    simp only [subSpacesGo]
    by_cases h : (b && decide (a = ' ')) = true
    · rw [if_pos h]
      exact ⟨(ih true).1, fun _ => (ih true).2 rfl⟩
    · rw [if_neg h]
      constructor
      · simp only [noDoubleSpace, Bool.and_eq_true]
        refine ⟨?_, (ih _).1⟩
        by_cases ha : a = ' '
        · have hhead := (ih (decide (a = ' '))).2 (by simp [ha])
          simp only [Bool.not_eq_true']
          rw [Bool.and_eq_false_iff]
          right
          rw [beq_eq_false_iff_ne]
          exact hhead
        · simp [ha]
      · intro hb
        have hane : a ≠ ' ' := by
          intro ha
          rw [hb, ha] at h
          simp at h
        simp only [List.head?_cons]
        intro hcontra
        exact hane (Option.some.injEq _ _ ▸ hcontra)

theorem subSpacesGo_id : ∀ (s : List Char) (b : Bool),
    noDoubleSpace s = true → (b = true → s.head? ≠ some ' ') → subSpacesGo b s = s := by
  intro s
  induction s with
  | nil =>
    intro b _ _
    rfl
  | cons a rest ih =>
    intro b hno hhead
    simp only [noDoubleSpace, Bool.and_eq_true] at hno
    simp only [subSpacesGo]
    have hcond : (b && decide (a = ' ')) = false := by
      by_cases hb : b = true
      · have hane : a ≠ ' ' := by
          intro ha
          exact hhead hb (by rw [ha]; rfl)
        simp [hb, hane]
      · have hbf : b = false := by
          cases b
          · rfl
          · exact absurd rfl hb
        simp [hbf]
    rw [if_neg (by simp [hcond])]
    congr 1
    apply ih
    · exact hno.2
    · intro ha hr
      have h1 := hno.1
      rw [ha] at h1
      rw [hr] at h1
      simp at h1

theorem subSpacesGo_preserves_noNlSpace : ∀ (v : List Char) (b : Bool),
    noNlSpace v = true → noNlSpace (subSpacesGo b v) = true := by
  intro v
  induction v with
  | nil =>
    intro b _
    rfl
  | cons a rest ih =>
    intro b hno
    simp only [noNlSpace, Bool.and_eq_true] at hno
    simp only [subSpacesGo]
    by_cases h : (b && decide (a = ' ')) = true
    · rw [if_pos h]
      exact ih true hno.2
    · rw [if_neg h]
      simp only [noNlSpace, Bool.and_eq_true]
      refine ⟨?_, ih _ hno.2⟩
      by_cases ha : a = '\n'
      · have hstate : decide (a = ' ') = false := by simp [ha]
        rw [hstate, subSpacesGo_false_head]
        have h1 := hno.1
        rw [ha] at h1 ⊢
        simpa using h1
      · simp [ha]

theorem notMem_replaceAllF_singleton {a b : Char} (hab : a ≠ b) :
    ∀ (fuel : Nat) (s : List Char), s.length ≤ fuel → a ∉ replaceAllF [a] [b] fuel s := by
  intro fuel
  induction fuel with
  | zero =>
    intro s hlen hmem
    have : s = [] := List.eq_nil_of_length_eq_zero (Nat.le_zero.mp hlen)
    rw [this] at hmem
    simp [replaceAllF] at hmem
  | succ f ih =>
    intro s hlen hmem
    cases s with
    | nil => simp [replaceAllF] at hmem
    | cons c rest =>
      simp only [replaceAllF] at hmem
      have hrest : rest.length ≤ f := by
        simp only [List.length_cons] at hlen
        omega
      by_cases hp : (!([a] : List Char).isEmpty && ([a] : List Char).isPrefixOf (c :: rest)) = true
      · rw [if_pos hp] at hmem
        have hdrop : (c :: rest).drop ([a] : List Char).length = rest := rfl
        rw [hdrop] at hmem
        rcases List.mem_append.mp hmem with h | h
        · rw [List.mem_singleton] at h
          exact hab h
        · exact ih rest hrest h
      · rw [if_neg hp] at hmem
        have hca : c ≠ a := by
          intro hca
          apply hp
          simp [List.isPrefixOf, hca]
        rcases List.mem_cons.mp hmem with h | h
        · exact hca h.symm
        · exact ih rest hrest h

theorem notMem_replaceAll_singleton {a b : Char} (hab : a ≠ b) (s : List Char) :
    a ∉ replaceAll [a] [b] s :=
  notMem_replaceAllF_singleton hab s.length s (Nat.le_refl _)

/-- C10: the Sanitizer is idempotent — applying sanitize_str a second time
changes nothing: the first pass leaves only allowed characters, no carriage
returns, no space directly after a newline and no space pair, and each rule
is the identity on strings satisfying its invariant. -/
theorem sanitize_str_idempotent : ∀ s : List Char,
    sanitize_str (sanitize_str s) = sanitize_str s := by
  intro s
  have hmemt : ∀ c ∈ sanitize_str s, allowedSani c = true := by
    intro c hc
    unfold sanitize_str subSpaces subNlSpaces at hc
    have hc1 := mem_subSpacesGo _ _ _ hc
    have hc2 := mem_subNlSpacesGo _ _ _ hc1
    rcases mem_replaceAll hc2 with h | h
    · rcases mem_replaceAll h with h2 | h2
      · exact (List.mem_filter.mp h2).2
      · have : c = '\n' := by simpa [chars] using h2
        rw [this]
        decide
    · have : c = '\n' := by simpa [chars] using h
      rw [this]
      decide
  have hnoCR : '\r' ∉ sanitize_str s := by
    intro hc
    unfold sanitize_str subSpaces subNlSpaces at hc
    have hc1 := mem_subSpacesGo _ _ _ hc
    have hc2 := mem_subNlSpacesGo _ _ _ hc1
    have e : chars "\r" = ['\r'] := rfl
    have e2 : chars "\n" = ['\n'] := rfl
    rw [e, e2] at hc2
    exact notMem_replaceAll_singleton (by decide) _ hc2
  have hnoNl : noNlSpace (sanitize_str s) = true := by
    unfold sanitize_str subSpaces subNlSpaces
    exact subSpacesGo_preserves_noNlSpace _ false (subNlSpacesGo_noNlSpace _ false).1
  have hnoD : noDoubleSpace (sanitize_str s) = true := by
    unfold sanitize_str subSpaces subNlSpaces
    exact (subSpacesGo_noDoubleSpace _ false).1
  set t := sanitize_str s with ht
  show sanitize_str t = t
  unfold sanitize_str
  have hfil : t.filter allowedSani = t := List.filter_eq_self.mpr hmemt
  rw [hfil]
  have e : chars "\r\n" = '\r' :: ['\n'] := rfl
  rw [e]
  rw [replaceAll_id_of_head_notMem hnoCR]
  have e2 : chars "\r" = '\r' :: ([] : List Char) := rfl
  rw [e2]
  rw [replaceAll_id_of_head_notMem hnoCR]
  unfold subNlSpaces
  rw [subNlSpacesGo_id t false hnoNl (by simp)]
  unfold subSpaces
  rw [subSpacesGo_id t false hnoD (by simp)]

/-! ## C1: convert_line always yields embeddable well-formed XML -/

theorem foldl_xstep_bad : ∀ (l : List Char), l.foldl xstep XState.bad = XState.bad := by
  intro l
  induction l with
  | nil => rfl
  | cons c rest ih =>
    rw [List.foldl_cons]
    exact ih

theorem pySpace_props {c : Char} (h : isPySpace c = true) :
    c ≠ '<' ∧ c ≠ '>' ∧ c ≠ '&' ∧ c ≠ ';' ∧ entChar c = false := by
  simp only [isPySpace, Bool.or_eq_true, decide_eq_true_eq, or_assoc] at h
  rcases h with h|h|h|h|h|h|h|h|h|h|h|h|h|h|h|h|h|h|h|h|h|h|h|h|h|h|h|h|h <;>
    subst h <;> refine ⟨by decide, by decide, by decide, by decide, by decide⟩

theorem isAccept_iff {X : XState} : isAccept X = true ↔ X = XState.txt [] true := by
  cases X with
  | txt stack b =>
    cases stack with
    | nil => cases b <;> simp [isAccept]
    | cons s ss => simp [isAccept]
  | tag acc stack b => simp [isAccept]
  | ent acc stack b => simp [isAccept]
  | bad => simp [isAccept]

theorem foldl_ws_txt : ∀ (L : List Char), (∀ c ∈ L, isPySpace c = true) → ∀ (b : Bool),
    L.foldl xstep (XState.txt [chars "p"] b) = XState.txt [chars "p"] b ∨
    L.foldl xstep (XState.txt [chars "p"] b) = XState.bad := by
  intro L
  induction L with
  | nil =>
    intro _ b
    exact Or.inl rfl
  | cons c rest ih =>
    intro h b
    have hc := h c (List.mem_cons_self _ _)
    obtain ⟨h1, h2, h3, h4, h5⟩ := pySpace_props hc
    rw [List.foldl_cons]
    cases hv : validChar c with
    | true =>
      have hstep : xstep (XState.txt [chars "p"] b) c = XState.txt [chars "p"] b := by
        simp [xstep, h1, h3, hv]
      rw [hstep]
      exact ih (fun d hd => h d (List.mem_cons_of_mem _ hd)) b
    | false =>
      have hstep : xstep (XState.txt [chars "p"] b) c = XState.bad := by
        simp [xstep, h1, h3, hv]
      rw [hstep, foldl_xstep_bad]
      exact Or.inr rfl

theorem foldl_ws_back : ∀ (R : List Char), (∀ c ∈ R, isPySpace c = true) →
    ∀ (X : XState) (b : Bool),
      R.foldl xstep X = XState.txt [chars "p"] b → X = XState.txt [chars "p"] b := by
  intro R
  induction R with
  | nil =>
    intro _ X b h
    exact h
  | cons c rest ih =>
    intro h X b hfold
    rw [List.foldl_cons] at hfold
    have hstep := ih (fun d hd => h d (List.mem_cons_of_mem _ hd)) _ b hfold
    have hc := h c (List.mem_cons_self _ _)
    obtain ⟨h1, h2, h3, h4, h5⟩ := pySpace_props hc
    cases X with
    | bad => simp [xstep] at hstep
    | txt stack b2 =>
      simp only [xstep, h1, h3, if_false] at hstep
      cases hv : validChar c with
      | false =>
        rw [hv] at hstep
        simp at hstep
      | true =>
        rw [hv] at hstep
        simp only [Bool.not_true, Bool.false_eq_true, if_false] at hstep
        cases stack with
        | nil =>
          simp only [List.isEmpty_nil, if_true] at hstep
          by_cases hws : isXmlWs c = true
          · rw [if_pos hws] at hstep
            injection hstep with hs hb
            exact absurd hs (by simp [chars])
          · rw [if_neg hws] at hstep
            exact absurd hstep (by simp)
        | cons top ss =>
          simp only [List.isEmpty_cons, Bool.false_eq_true, if_false] at hstep
          exact hstep
    | tag acc stack b2 =>
      simp only [xstep, h1, h2, if_false] at hstep
      cases hv : validChar c with
      | true =>
        rw [hv] at hstep
        simp at hstep
      | false =>
        rw [hv] at hstep
        simp at hstep
    | ent acc stack b2 =>
      simp only [xstep, h4, h5, if_false, Bool.false_eq_true] at hstep
      simp at hstep

theorem foldl_close_p (b : Bool) :
    (chars "</p>").foldl xstep (XState.txt [chars "p"] b) = XState.txt [] true := by
  cases b <;> decide

theorem foldl_close_inv : ∀ (X : XState),
    (chars "</p>").foldl xstep X = XState.txt [] true → ∃ b, X = XState.txt [chars "p"] b := by
  intro X h
  have e : chars "</p>" = ['<', '/', 'p', '>'] := rfl
  rw [e] at h
  simp only [List.foldl_cons, List.foldl_nil] at h
  cases X with
  | bad =>
    simp [xstep] at h
  | tag acc stack b2 =>
    rw [show xstep (XState.tag acc stack b2) '<' = XState.bad from by
      simp [xstep, show ('<' : Char) ≠ '>' from by decide]] at h
    simp [xstep] at h
  | ent acc stack b2 =>
    rw [show xstep (XState.ent acc stack b2) '<' = XState.bad from by
      simp [xstep, show ('<' : Char) ≠ ';' from by decide,
        show entChar '<' = false from by decide]] at h
    simp [xstep] at h
  | txt stack b2 =>
    rw [show xstep (XState.txt stack b2) '<' = XState.tag [] stack b2 from by simp [xstep]] at h
    rw [show xstep (XState.tag [] stack b2) '/' = XState.tag ['/'] stack b2 from by
      simp [xstep, show ('/' : Char) ≠ '>' from by decide,
        show ('/' : Char) ≠ '<' from by decide,
        show validChar '/' = true from by decide]] at h
    rw [show xstep (XState.tag ['/'] stack b2) 'p' = XState.tag ['/', 'p'] stack b2 from by
      simp [xstep, show ('p' : Char) ≠ '>' from by decide,
        show ('p' : Char) ≠ '<' from by decide,
        show validChar 'p' = true from by decide]] at h
    rw [show xstep (XState.tag ['/', 'p'] stack b2) '>' = finishTag ['/', 'p'] stack b2 from by
      simp [xstep]] at h
    simp only [finishTag] at h
    cases stack with
    | nil => simp at h
    | cons top ss =>
      dsimp only at h
      by_cases htop : (['p'] : List Char) = top
      · rw [← htop] at h
        rw [if_pos (by decide :
            ((['p'] : List Char) = ['p'] && !(['p'] : List Char).isEmpty &&
              (['p'] : List Char).all nameChar) = true)] at h
        injection h with hss hb
        refine ⟨b2, ?_⟩
        rw [← htop, hss]
        rfl
      · rw [if_neg (by simp [htop] :
            ¬ ((['p'] : List Char) = top && !(['p'] : List Char).isEmpty &&
              (['p'] : List Char).all nameChar) = true)] at h
        simp at h

theorem pyStrip_decomp (s : List Char) :
    ∃ L R, s = L ++ pyStrip s ++ R ∧ (∀ c ∈ L, isPySpace c = true) ∧
      (∀ c ∈ R, isPySpace c = true) := by
  refine ⟨s.takeWhile isPySpace,
    ((s.dropWhile isPySpace).reverse.takeWhile isPySpace).reverse, ?_, ?_, ?_⟩
  · have hsplit : s.takeWhile isPySpace ++ s.dropWhile isPySpace = s := by simp
    have hu : (s.dropWhile isPySpace).reverse.takeWhile isPySpace ++
        (s.dropWhile isPySpace).reverse.dropWhile isPySpace =
        (s.dropWhile isPySpace).reverse := by simp
    have hu2 : s.dropWhile isPySpace =
        ((s.dropWhile isPySpace).reverse.dropWhile isPySpace).reverse ++
        ((s.dropWhile isPySpace).reverse.takeWhile isPySpace).reverse := by
      conv_lhs => rw [← List.reverse_reverse (s.dropWhile isPySpace), ← hu]
      rw [List.reverse_append]
    conv_lhs => rw [← hsplit, hu2]
    unfold pyStrip
    rw [List.append_assoc]
  · intro c hc
    exact List.mem_takeWhile_imp hc
  · intro c hc
    rw [List.mem_reverse] at hc
    exact List.mem_takeWhile_imp hc

theorem is_valid_xml_strip {s : List Char}
    (h : is_valid_xml (chars "<p>" ++ s ++ chars "</p>") = true) :
    is_valid_xml (chars "<p>" ++ pyStrip s ++ chars "</p>") = true := by
  obtain ⟨L, R, hdec, hL, hR⟩ := pyStrip_decomp s
  unfold is_valid_xml at h ⊢
  rw [isAccept_iff] at h ⊢
  set M := pyStrip s with hM
  rw [hdec] at h
  simp only [List.append_assoc] at h ⊢
  simp only [List.foldl_append] at h ⊢
  have h0 : List.foldl xstep (XState.txt [] false) (chars "<p>") =
      XState.txt [chars "p"] false := by decide
  rw [h0] at h ⊢
  rcases foldl_ws_txt L hL false with hL1 | hL1
  · rw [hL1] at h
    obtain ⟨b, hXR⟩ := foldl_close_inv _ h
    have hXM := foldl_ws_back R hR _ b hXR
    rw [hXM]
    exact foldl_close_p b
  · rw [hL1, foldl_xstep_bad, foldl_xstep_bad, foldl_xstep_bad] at h
    exact absurd h (by simp)

theorem foldl_escape_valid : ∀ (t : List Char), (∀ c ∈ t, validChar c = true) → ∀ (b : Bool),
    (escape t).foldl xstep (XState.txt [chars "p"] b) = XState.txt [chars "p"] b := by
  intro t
  induction t with
  | nil =>
    intro _ b
    rfl
  | cons c rest ih =>
    intro h b
    have hc := h c (List.mem_cons_self _ _)
    have ihr := ih (fun d hd => h d (List.mem_cons_of_mem _ hd)) b
    simp only [escape]
    rw [List.foldl_append]
    by_cases h1 : c = '&'
    · rw [if_pos h1]
      have e : (chars "&amp;").foldl xstep (XState.txt [chars "p"] b) =
          XState.txt [chars "p"] b := rfl
      rw [e]
      exact ihr
    · rw [if_neg h1]
      by_cases h2 : c = '<'
      · rw [if_pos h2]
        have e : (chars "&lt;").foldl xstep (XState.txt [chars "p"] b) =
            XState.txt [chars "p"] b := rfl
        rw [e]
        exact ihr
      · rw [if_neg h2]
        by_cases h3 : c = '>'
        · rw [if_pos h3]
          have e : (chars "&gt;").foldl xstep (XState.txt [chars "p"] b) =
              XState.txt [chars "p"] b := rfl
          rw [e]
          exact ihr
        · rw [if_neg h3]
          have e : ([c].foldl xstep (XState.txt [chars "p"] b)) =
              xstep (XState.txt [chars "p"] b) c := rfl
          rw [e]
          have hstep : xstep (XState.txt [chars "p"] b) c = XState.txt [chars "p"] b := by
            simp [xstep, h1, h2, hc]
          rw [hstep]
          exact ihr

theorem escaped_fragment_valid {t : List Char} (h : ∀ c ∈ t, validChar c = true) :
    is_valid_xml (chars "<p>" ++ escape t ++ chars "</p>") = true := by
  unfold is_valid_xml
  rw [isAccept_iff]
  simp only [List.append_assoc, List.foldl_append]
  have h0 : List.foldl xstep (XState.txt [] false) (chars "<p>") =
      XState.txt [chars "p"] false := by decide
  rw [h0, foldl_escape_valid t h false]
  exact foldl_close_p false

theorem ACIP_transform_valid {A : Adapter}
    (hA : ∀ s, ∀ c ∈ A.toUnicode (A.toEWTS s), validChar c = true) (s : List Char) (b : Bool) :
    ∀ c ∈ ACIP_transform A s b, validChar c = true := by
  intro c hc
  dsimp only [ACIP_transform] at hc
  have hstep : ∀ d ∈ replaceAll (chars "ང།") (chars "ང་།") (A.toUnicode (A.toEWTS s)),
      validChar d = true := by
    intro d hd
    rcases mem_replaceAll hd with h | h
    · exact hA s d h
    · have : d = 'ང' ∨ d = '་' ∨ d = '།' := by simpa [chars] using h
      rcases this with h2 | h2 | h2 <;> rw [h2] <;> decide
  by_cases hsw : ((A.toEWTS s).head? = some ' ')
  · rw [if_pos hsw] at hc
    rcases List.mem_cons.mp hc with h | h
    · cases b with
      | true =>
        rw [h]
        decide
      | false =>
        rw [h]
        decide
    · exact hstep c h
  · rw [if_neg hsw] at hc
    exact hstep c hc

/-- C1: for every paragraph string and every variant_mode, convert_line
returns a string that is well-formed when wrapped in a p element; when the
candidate markup fails to parse, the fallback branch produces the escaped
transliteration instead of surfacing an error. Hypothesis: the external
transliteration pipeline emits only XML-valid characters (the adapter
contract of the spec). -/
theorem convert_line_valid_xml :
    ∀ (A : Adapter), (∀ s, ∀ c ∈ A.toUnicode (A.toEWTS s), validChar c = true) →
      ∀ (lineStr : List Char) (variantMode : Nat),
        is_valid_xml (chars "<p>" ++ convert_line A lineStr variantMode ++ chars "</p>") = true := by
  intro A hA l m
  have htrue : ∀ (h : is_valid_xml (chars "<p>" ++ convert_line_candidate A l m ++
      chars "</p>") = true), convert_line A l m = pyStrip (convert_line_candidate A l m) := by
    intro h
    dsimp only [convert_line]
    rw [h]
    simp
  have hfalse : ∀ (h : is_valid_xml (chars "<p>" ++ convert_line_candidate A l m ++
      chars "</p>") = false), convert_line A l m =
      escape (pyStrip (ACIP_transform A (original_line_str l) false)) := by
    intro h
    dsimp only [convert_line]
    rw [h]
    simp
  cases hval : is_valid_xml (chars "<p>" ++ convert_line_candidate A l m ++ chars "</p>") with
  | false =>
    rw [hfalse hval]
    apply escaped_fragment_valid
    intro c hc
    exact ACIP_transform_valid hA _ _ c (mem_of_mem_pyStrip hc)
  | true =>
    rw [htrue hval]
    exact is_valid_xml_strip hval

/-- Witness for C1: a concrete adapter satisfying the character contract and
a concrete paragraph whose conversion wraps to well-formed XML. -/
theorem convert_line_valid_xml_witness :
    (∀ s, ∀ c ∈ filterAdapter.toUnicode (filterAdapter.toEWTS s), validChar c = true) ∧
    is_valid_xml (chars "<p>" ++ convert_line filterAdapter (chars "ka [kha?]") 2 ++
      chars "</p>") = true :=
  ⟨fun _ c hc => (List.mem_filter.mp hc).2,
   convert_line_valid_xml filterAdapter (fun _ c hc => (List.mem_filter.mp hc).2)
     (chars "ka [kha?]") 2⟩

/-! ## C9: the first-folio heuristic -/

/-- C9: when the parsed pages start with an unnumbered page followed by pages
labelled 1a (or 1) and 2a, parse_document relabels the first two pages to 1a
and 1b and keeps everything else; in every other case the pages are returned
exactly as normalized. -/
theorem parse_document_first_folio_heuristic :
    ∀ content : List Char,
      (∀ (p0 p1 p2 : PPage) (rest : List PPage),
        pagesBeforeFix content = p0 :: p1 :: p2 :: rest →
        p0.number = none →
        (p1.number = some (chars "1a") ∨ p1.number = some (chars "1")) →
        p2.number = some (chars "2a") →
        parse_document content =
          ⟨some (chars "1a"), p0.content⟩ :: ⟨some (chars "1b"), p1.content⟩ :: p2 :: rest) ∧
      (heurCond (pagesBeforeFix content) = false →
        parse_document content = pagesBeforeFix content) := by
  intro content
  constructor
  · intro p0 p1 p2 rest hps h0 h1 h2
    have hc : heurCond (p0 :: p1 :: p2 :: rest) = true := by
      simp only [heurCond, h0, h2, Option.isNone_none, Bool.true_and]
      rcases h1 with h | h <;> simp [h]
    simp only [parse_document, hps]
    rw [if_pos hc]
    simp [relabelFirst]
  · intro hc
    simp only [parse_document]
    rw [hc]
    simp

/-- Witness for C9 at a concrete document with a missing first marker. -/
theorem parse_document_first_folio_heuristic_witness :
    pagesBeforeFix (chars "x @1a y @2a z") =
      [⟨none, [chars "x"]⟩, ⟨some (chars "1a"), [chars "y"]⟩,
       ⟨some (chars "2a"), [chars "z"]⟩] ∧
    parse_document (chars "x @1a y @2a z") =
      [⟨some (chars "1a"), [chars "x"]⟩, ⟨some (chars "1b"), [chars "y"]⟩,
       ⟨some (chars "2a"), [chars "z"]⟩] :=
  ⟨by decide,
   (parse_document_first_folio_heuristic (chars "x @1a y @2a z")).1
     ⟨none, [chars "x"]⟩ ⟨some (chars "1a"), [chars "y"]⟩ ⟨some (chars "2a"), [chars "z"]⟩ []
     (by decide) (by decide) (Or.inl (by decide)) (by decide)⟩

end ACIPConv
